import Mathlib

/-!
Verification of the aioftp-s3 path-IO adapter against its specification.

The definitions below are a shallow embedding of `src/aioftps3.py` (and the
identical copies of some helpers in `src/s3pathio.py`):

* the facade predicates `_is_file` / `_is_dir` / `_exists` and the two mode
  constants,
* the listing materialisation `_list_immediate_child_paths`,
* the multipart write session (`_open_wb`: `write`, `upload_part`, `end`),
* the rmdir delete ordering (`_rmdir`),
* the SigV4 canonical request construction (`_aws_sig_v4_headers`),
* the per-path fair read/write lock (`_ReadWriteLock`).

Python strings are modelled as `List Char` (or `List Nat` for byte strings),
asyncio futures as explicit waiter records, and the event loop as explicit
event lists.  Network effects (HEAD results, upload-task completion) are
oracles / events supplied to the model.
-/

namespace AioFtpS3

/-! ### Mode constants and `Stat` (aioftps3.py lines 33-44)

The source has `REG_MODE = 0o10666` with the comment `stat.S_IFREG | 0o666`;
note that `stat.S_IFREG | 0o666 = 0o100666`, so the written constant is
missing a digit.  We embed the constant exactly as written. -/

def REG_MODE : Nat := 0o10666

def DIR_MODE : Nat := 0o40777

/-- `Stat` namedtuple, fields in source order. -/
structure Stat where
  st_size : Nat
  st_mtime : Int
  st_ctime : Int
  st_nlink : Nat
  st_mode : Nat
deriving DecidableEq, Repr

/-! ### Paths as passed to the facade

A path argument is either a plain `PurePosixPath` or an `S3Path` carrying a
`Stat` (attached by listings).  Only its posix string, the carried stat and
the `isinstance(path, S3Path)` test are observable to the embedded code. -/

inductive FsPath where
  | plain (posix : List Char)
  | s3 (posix : List Char) (stat : Stat)
deriving DecidableEq, Repr

def FsPath.posix : FsPath → List Char
  | .plain p => p
  | .s3 p _ => p

/-- `isinstance(path, S3Path)` -/
def FsPath.hasStat : FsPath → Bool
  | .plain _ => false
  | .s3 _ _ => true

/-- `path.stat.st_mode` (0 placeholder for plain paths, guarded by `hasStat`). -/
def FsPath.statMode : FsPath → Nat
  | .plain _ => 0
  | .s3 _ st => st.st_mode

/-- `path == PurePosixPath('.')`: the root's posix form is `"."`. -/
def FsPath.isRoot (p : FsPath) : Bool := p.posix = ['.']

/-- The S3 HEAD responses visible to `_file_exists` / `_dir_exists`: for a key
`k`, `fileHead k` is whether `HEAD /k` returns 200, and `dirHead k` whether
`HEAD /(k ++ "/")` returns 200. -/
structure HeadOracle where
  fileHead : List Char → Bool
  dirHead : List Char → Bool

/-- `_file_exists(context, path)` (aioftps3.py lines 219-223). -/
def fileExists (ctx : HeadOracle) (p : FsPath) : Bool := ctx.fileHead p.posix

/-- `_dir_exists(context, path)` (aioftps3.py lines 226-230); the HEAD is on
`key + S3_DIR_SUFFIX`. -/
def dirExists (ctx : HeadOracle) (p : FsPath) : Bool := ctx.dirHead (p.posix ++ ['/'])

/-- `_is_file(context, path)` (aioftps3.py lines 211-216):
`True if isinstance(path, S3Path) and path.stat.st_mode & REG_MODE else
False if path == PurePosixPath('.') else await _file_exists(context, path)`. -/
def isFile (ctx : HeadOracle) (p : FsPath) : Bool :=
  if p.hasStat && (p.statMode &&& REG_MODE != 0) then true
  else if p.isRoot then false
  else fileExists ctx p

/-- `_is_dir(context, path)` (aioftps3.py lines 203-208). -/
def isDir (ctx : HeadOracle) (p : FsPath) : Bool :=
  if p.hasStat && (p.statMode &&& DIR_MODE != 0) then true
  else if p.isRoot then true
  else dirExists ctx p

/-- `_exists(context, path)` (aioftps3.py lines 197-200): short-circuit `or`
of `_is_file` and `_is_dir`. -/
def existsPath (ctx : HeadOracle) (p : FsPath) : Bool :=
  if isFile ctx p then true else isDir ctx p

/-! ### Listing materialisation (aioftps3.py lines 441-467) -/

structure ListKey where
  key : List Char
  size : Nat
  last_modified : Int
deriving DecidableEq, Repr

structure ListPrefix where
  pfx : List Char
deriving DecidableEq, Repr

/-- `list_key.key[-1] != S3_DIR_SUFFIX` (defined — raising — only for
nonempty keys; S3 keys are nonempty). -/
def lastCharNotSlash (k : List Char) : Bool := k.getLast? != some '/'

/-- `_list_immediate_child_paths`: file entries from `Contents` whose key does
not end in `/`, carrying `REG_MODE` stats, followed by directory entries from
`CommonPrefixes` carrying `DIR_MODE` stats with zeroed timestamps. -/
def listImmediateChildPaths (listKeys : List ListKey) (listPrefixes : List ListPrefix) :
    List FsPath :=
  ((listKeys.filter fun k => lastCharNotSlash k.key).map fun k =>
    FsPath.s3 k.key
      { st_size := k.size
        st_mtime := k.last_modified
        st_ctime := k.last_modified
        st_nlink := 1
        st_mode := REG_MODE }) ++
  (listPrefixes.map fun p =>
    FsPath.s3 p.pfx
      { st_size := 0
        st_mtime := 0
        st_ctime := 0
        st_nlink := 1
        st_mode := DIR_MODE })

/-! ### Claims C1-C3 -/

/-- C1: the claim states that for a path carrying a directory `Stat`
(mode `0o40777`) `is_file` returns false.  The code instead tests
`path.stat.st_mode & REG_MODE`, and `0o40777 &&& 0o10666 = 0o666 ≠ 0`, so
`_is_file` returns True on a directory-stat path even when the HEAD oracle
reports nothing exists.  (The root path `"."` without a stat does return
false, as the claim says.)  This evaluates the embedded code at the failing
input. -/
theorem is_file_true_on_directory_stat :
    isFile ⟨fun _ => false, fun _ => false⟩
      (.s3 ['x'] { st_size := 0, st_mtime := 0, st_ctime := 0, st_nlink := 1,
                   st_mode := DIR_MODE }) = true ∧
    DIR_MODE &&& REG_MODE ≠ 0 ∧
    isFile ⟨fun _ => false, fun _ => false⟩ (.plain ['.']) = false := by
  decide

/-- C2: `_exists(context, path)` returns true exactly when `_is_file` or
`_is_dir` does, for every oracle and every path. -/
theorem exists_iff_is_file_or_is_dir (ctx : HeadOracle) (p : FsPath) :
    existsPath ctx p = (isFile ctx p || isDir ctx p) ∧
    (existsPath ctx p = true ↔ (isFile ctx p = true ∨ isDir ctx p = true)) := by
  unfold existsPath
  cases h : isFile ctx p <;> simp

/-- C3: the claim states file entries carry mode `0o100666`.  The code's
`REG_MODE` is written `0o10666` (its own comment says `stat.S_IFREG | 0o666`,
which is `0o100666`), so every file entry materialised by
`_list_immediate_child_paths` carries mode `0o10666 ≠ 0o100666`.  Directory
entries do carry `0o40777` as claimed.  Evaluated at a concrete listing. -/
theorem listing_file_mode_is_0o10666 :
    (listImmediateChildPaths [{ key := ['a'], size := 1, last_modified := 5 }]
        [{ pfx := ['d'] }]).map FsPath.statMode = [REG_MODE, DIR_MODE] ∧
    REG_MODE = 0o10666 ∧ REG_MODE ≠ 0o100666 ∧ DIR_MODE = 0o40777 := by
  decide

/-! ### Multipart write session (aioftps3.py `_open_wb`, lines 268-361)

Chunks are modelled by their byte length.  A started part upload records the
part length, the buffered chunk lengths handed to the upload task, and
whether the task has completed (its buffers are released on completion).
The 1-second backpressure sleep is a suspension point: the parts that
complete during it are an input (`sleepDone`) to the `write` step. -/

def MULTIPART_UPLOAD_MIN_BYTES : Nat := 1024 * 1024 * 25

def MULTIPART_UPLOAD_MAX_CONCURRENT_UPLOADS_PER_FILE : Nat := 3

structure PartUpload where
  len : Nat
  chunks : List Nat
  done : Bool
deriving DecidableEq, Repr

instance : Inhabited PartUpload := ⟨{ len := 0, chunks := [], done := true }⟩

structure WriteSession where
  partUploads : List PartUpload
  partLength : Nat
  partChunks : List Nat
  raised : Bool
deriving DecidableEq, Repr

/-- `new_part_init()` (lines 283-289). -/
def newPartInit (s : WriteSession) : WriteSession :=
  { s with partLength := 0, partChunks := [] }

/-- State after `start()`: empty accumulator, no part uploads. -/
def startSession : WriteSession :=
  { partUploads := [], partLength := 0, partChunks := [], raised := false }

/-- `upload_part()` (lines 312-318): spawn a task for the accumulated part
(part number `len(part_uploads) + 1`) and reset the accumulator. -/
def uploadPart (s : WriteSession) : WriteSession :=
  newPartInit
    { s with partUploads :=
        s.partUploads ++ [{ len := s.partLength, chunks := s.partChunks, done := false }] }

/-- Completion of the part-upload tasks whose indexes are listed. -/
def markDone (idxs : List Nat) (s : WriteSession) : WriteSession :=
  { s with partUploads :=
      (s.partUploads.enum.map fun pi =>
        if pi.1 ∈ idxs then { pi.2 with done := true } else pi.2) }

/-- `[upload for upload in part_uploads if not upload.done()]`. -/
def inProgressCount (s : WriteSession) : Nat :=
  (s.partUploads.filter fun p => !p.done).length

/-- `len(part_uploads) > 2 and not part_uploads[-2].done()` (line 297). -/
def sleepGate (s : WriteSession) : Bool :=
  decide (2 < s.partUploads.length) &&
    !(s.partUploads.getD (s.partUploads.length - 2) default).done

/-- The unconditional tail of `write` (lines 304-310): accumulate the chunk
and flush a part once the accumulator reaches `MULTIPART_UPLOAD_MIN_BYTES`. -/
def accumulateChunk (s : WriteSession) (chunk : Nat) : WriteSession :=
  let s2 := { s with partLength := s.partLength + chunk,
                     partChunks := s.partChunks ++ [chunk] }
  if MULTIPART_UPLOAD_MIN_BYTES ≤ s2.partLength then uploadPart s2 else s2

/-- `write(chunk)` (lines 291-310).  Returns the new session state together
with whether the step slept and whether it raised
`'Too many incomplete uploads to S3'` (in which case the chunk is not
accumulated: the exception propagates before the append). -/
def writeChunk (s : WriteSession) (chunk : Nat) (sleepDone : List Nat) :
    WriteSession × Bool × Bool :=
  if sleepGate s then
    let s1 := markDone sleepDone s
    if MULTIPART_UPLOAD_MAX_CONCURRENT_UPLOADS_PER_FILE < inProgressCount s1 then
      ({ s1 with raised := true }, true, true)
    else
      (accumulateChunk s1 chunk, true, false)
  else
    (accumulateChunk s chunk, false, false)

/-- `end()` (lines 320-346): ensure at least one part exists (`write(b'')` on
an empty upload), flush any unflushed accumulator, then complete with the
part numbers in submission order. -/
def endSession (s : WriteSession) : WriteSession × List Nat :=
  let s1 := if s.partUploads.isEmpty then (writeChunk s 0 []).1 else s
  let s2 := if s1.partChunks.isEmpty then s1 else uploadPart s1
  (s2, (List.range s2.partUploads.length).map (· + 1))

/-! ### Claims C4 and C5 -/

/-- C4: `write(chunk)` takes the backpressure path (sleeps 1 second) iff more
than 2 part uploads have been started and the second-most-recent started part
is unfinished; it then raises iff the unfinished-part count after the sleep
exceeds `MULTIPART_UPLOAD_MAX_CONCURRENT_UPLOADS_PER_FILE`; otherwise it
neither sleeps nor raises. -/
theorem write_backpressure_characterisation (s : WriteSession) (chunk : Nat)
    (sleepDone : List Nat) :
    ((writeChunk s chunk sleepDone).2.1 = true ↔
      (2 < s.partUploads.length ∧
        (s.partUploads.getD (s.partUploads.length - 2) default).done = false)) ∧
    ((writeChunk s chunk sleepDone).2.2 = true ↔
      ((writeChunk s chunk sleepDone).2.1 = true ∧
        MULTIPART_UPLOAD_MAX_CONCURRENT_UPLOADS_PER_FILE <
          inProgressCount (markDone sleepDone s))) := by
  have hgate : sleepGate s = true ↔
      (2 < s.partUploads.length ∧
        (s.partUploads.getD (s.partUploads.length - 2) default).done = false) := by
    simp [sleepGate]
  by_cases hg : sleepGate s
  · rw [writeChunk, if_pos hg]
    by_cases hc : MULTIPART_UPLOAD_MAX_CONCURRENT_UPLOADS_PER_FILE <
        inProgressCount (markDone sleepDone s)
    · rw [if_pos hc]
      exact ⟨by simpa using hgate.mp hg, by simpa using hc⟩
    · rw [if_neg hc]
      exact ⟨by simpa using hgate.mp hg, by simpa using hc⟩
  · rw [writeChunk, if_neg hg]
    refine ⟨by simpa using fun h => hg (hgate.mpr h), by simp⟩

/-- C5: calling `end()` on a session in which `write` was never called starts
exactly one part upload, of length 0 (the `write(b'')` chunk is buffered but,
being below the part threshold, is flushed by the `if part_chunks:` branch),
so the completion request carries exactly one part, never zero. -/
theorem end_on_empty_file_uploads_one_zero_length_part :
    (endSession startSession).1.partUploads =
      [{ len := 0, chunks := [0], done := false }] ∧
    (endSession startSession).2 = [1] := by
  decide

/-! ### Interleavings of `write` calls and part-upload completions (C9)

An open write session evolves by `write(chunk)` calls (with the parts that
complete during a backpressure sleep as an input) interleaved with
part-upload task completions.  The buffers pinned in memory are the current
accumulator (`part_chunks`) plus the chunk lists handed to the still-running
upload tasks; a finished task's buffers are released. -/

inductive WriteEvent where
  | wr (chunk : Nat) (sleepDone : List Nat)
  | complete (i : Nat)
deriving DecidableEq, Repr

def applyWriteEvent : WriteEvent → WriteSession → WriteSession
  | .wr c sd, s => if s.raised then s else (writeChunk s c sd).1
  | .complete i, s => markDone [i] s

def writeRun : List WriteEvent → WriteSession → WriteSession
  | [], s => s
  | e :: es, s => writeRun es (applyWriteEvent e s)

/-- Total bytes of the parts whose upload task has not finished. -/
def inFlightBytes (s : WriteSession) : Nat :=
  ((s.partUploads.filter fun p => !p.done).map PartUpload.len).sum

/-- The chunk buffers held in memory: the accumulator plus the chunks of the
in-flight parts. -/
def pinnedChunks (s : WriteSession) : List Nat :=
  s.partChunks ++ ((s.partUploads.filter fun p => !p.done).map PartUpload.chunks).flatten

def pinnedBytes (s : WriteSession) : Nat := (pinnedChunks s).sum

/-- Session invariant: the accumulator length is the sum of its chunks and is
strictly below the part threshold, and each started part's recorded length is
the sum of its chunk buffer. -/
def WriteInv (s : WriteSession) : Prop :=
  s.partLength = s.partChunks.sum ∧
  s.partLength < MULTIPART_UPLOAD_MIN_BYTES ∧
  ∀ p ∈ s.partUploads, p.len = p.chunks.sum

theorem writeInv_start : WriteInv startSession := by
  refine ⟨rfl, by norm_num [startSession, MULTIPART_UPLOAD_MIN_BYTES], ?_⟩
  intro p hp
  simp [startSession] at hp

theorem writeInv_markDone (idxs : List Nat) (s : WriteSession) (h : WriteInv s) :
    WriteInv (markDone idxs s) := by
  obtain ⟨h1, h2, h3⟩ := h
  refine ⟨h1, h2, ?_⟩
  intro p hp
  simp only [markDone, List.mem_map] at hp
  obtain ⟨⟨i, q⟩, hq, hpq⟩ := hp
  have hqmem : q ∈ s.partUploads := by
    have := List.enum_map_snd s.partUploads
    exact this ▸ List.mem_map_of_mem Prod.snd hq
  by_cases hi : i ∈ idxs <;> simp only [hi, if_pos, if_neg, ite_true, ite_false] at hpq <;>
    subst hpq <;> simpa using h3 q hqmem

theorem writeInv_accumulate (s : WriteSession) (c : Nat) (h : WriteInv s) :
    WriteInv (accumulateChunk s c) := by
  obtain ⟨h1, h2, h3⟩ := h
  unfold accumulateChunk
  by_cases hm : MULTIPART_UPLOAD_MIN_BYTES ≤ s.partLength + c
  · rw [if_pos hm]
    refine ⟨rfl, ?_, ?_⟩
    · show (0 : Nat) < MULTIPART_UPLOAD_MIN_BYTES
      norm_num [MULTIPART_UPLOAD_MIN_BYTES]
    · intro p hp
      simp only [uploadPart, newPartInit, List.mem_append, List.mem_singleton] at hp
      rcases hp with hp | hp
      · exact h3 p hp
      · subst hp
        simp [h1]
  · rw [if_neg hm]
    refine ⟨by simp [h1], ?_, fun p hp => h3 p hp⟩
    show s.partLength + c < MULTIPART_UPLOAD_MIN_BYTES
    omega

theorem writeInv_writeChunk (s : WriteSession) (c : Nat) (sd : List Nat)
    (h : WriteInv s) : WriteInv (writeChunk s c sd).1 := by
  unfold writeChunk
  by_cases hg : sleepGate s
  · rw [if_pos hg]
    by_cases hc : MULTIPART_UPLOAD_MAX_CONCURRENT_UPLOADS_PER_FILE <
        inProgressCount (markDone sd s)
    · rw [if_pos hc]
      obtain ⟨h1, h2, h3⟩ := writeInv_markDone sd s h
      exact ⟨h1, h2, h3⟩
    · rw [if_neg hc]
      exact writeInv_accumulate _ c (writeInv_markDone sd s h)
  · rw [if_neg hg]
    exact writeInv_accumulate _ c h

theorem writeInv_run (events : List WriteEvent) (s : WriteSession) (h : WriteInv s) :
    WriteInv (writeRun events s) := by
  induction events generalizing s with
  | nil => exact h
  | cons e es ih =>
    refine ih _ ?_
    cases e with
    | wr c sd =>
      by_cases hr : s.raised <;>
        simp only [applyWriteEvent, hr, ite_true, ite_false, if_pos, if_neg]
      · exact h
      · exact writeInv_writeChunk s c sd h
    | complete i => exact writeInv_markDone [i] s h

theorem pinnedBytes_eq_of_inv (s : WriteSession) (h : WriteInv s) :
    pinnedBytes s = s.partLength + inFlightBytes s := by
  obtain ⟨h1, h2, h3⟩ := h
  unfold pinnedBytes pinnedChunks inFlightBytes
  rw [List.sum_append, List.sum_flatten, List.map_map, ← h1]
  congr 1
  refine congrArg List.sum (List.map_congr_left ?_)
  intro p hp
  exact (h3 p (List.mem_of_mem_filter hp)).symm

/-- C9 (amended): in every reachable state of an open write session, the
pinned chunk buffers are exactly the single accumulating part (always
strictly below `MULTIPART_UPLOAD_MIN_BYTES` bytes) plus the chunks of the
in-flight (unfinished) parts; finished parts pin nothing.  The originally
claimed numeric bound `MIN_PART_BYTES × (MAX_CONCURRENT_UPLOADS_PER_FILE+1)`
does not hold (see the counterexample below): the in-flight part count is not
bounded by `MAX_CONCURRENT_UPLOADS_PER_FILE`. -/
theorem pinned_is_accumulator_plus_in_flight (events : List WriteEvent) :
    pinnedBytes (writeRun events startSession) =
      (writeRun events startSession).partLength +
        inFlightBytes (writeRun events startSession) ∧
    (writeRun events startSession).partLength < MULTIPART_UPLOAD_MIN_BYTES := by
  have h := writeInv_run events startSession writeInv_start
  exact ⟨pinnedBytes_eq_of_inv _ h, h.2.1⟩

/-- A schedule of six writes of exactly `MULTIPART_UPLOAD_MIN_BYTES` bytes in
which only part 4 (index 3) completes: no backpressure error is raised, yet
five parts are left in flight. -/
def c9Schedule : List WriteEvent :=
  [.wr MULTIPART_UPLOAD_MIN_BYTES [], .wr MULTIPART_UPLOAD_MIN_BYTES [],
   .wr MULTIPART_UPLOAD_MIN_BYTES [], .wr MULTIPART_UPLOAD_MIN_BYTES [],
   .complete 3,
   .wr MULTIPART_UPLOAD_MIN_BYTES [], .wr MULTIPART_UPLOAD_MIN_BYTES []]

/-- C9 counterexample: under `c9Schedule` the session never raises the
backpressure error, but the pinned bytes reach
`MIN_PART_BYTES × 5 > MIN_PART_BYTES × (MAX_CONCURRENT_UPLOADS_PER_FILE + 1)`,
refuting the claimed memory bound. -/
theorem pinned_bytes_exceed_claimed_bound :
    (writeRun c9Schedule startSession).raised = false ∧
    MULTIPART_UPLOAD_MIN_BYTES *
        (MULTIPART_UPLOAD_MAX_CONCURRENT_UPLOADS_PER_FILE + 1) <
      pinnedBytes (writeRun c9Schedule startSession) := by
  decide

/-! ### `_rmdir` delete ordering (aioftps3.py lines 239-250)

`_rmdir` lists all descendant keys and deletes them in
`sorted(keys, key=delete_sort_key, reverse=True)` order, where
`delete_sort_key(key) = (key.key.count('/'), len(key.key), key.key)`.
Python's `reverse=True` sort by a tuple key is modelled by sorting with the
decreasing tuple relation (a stable sort for a total preorder). -/

/-- `delete_sort_key` (lines 243-245). -/
def deleteSortKey (k : ListKey) : Nat × Nat × List Char :=
  (List.count '/' k.key, k.key.length, k.key)

/-- Lexicographic order on the Python sort-key tuples. -/
def tripleLe (a b : Nat × Nat × List Char) : Prop :=
  a.1 < b.1 ∨ (a.1 = b.1 ∧ (a.2.1 < b.2.1 ∨ (a.2.1 = b.2.1 ∧ a.2.2 ≤ b.2.2)))

instance : DecidableRel tripleLe := fun a b => by
  unfold tripleLe
  infer_instance

theorem tripleLe_total (a b : Nat × Nat × List Char) : tripleLe a b ∨ tripleLe b a := by
  unfold tripleLe
  rcases lt_trichotomy a.1 b.1 with h | h | h
  · exact Or.inl (Or.inl h)
  · rcases lt_trichotomy a.2.1 b.2.1 with h2 | h2 | h2
    · exact Or.inl (Or.inr ⟨h, Or.inl h2⟩)
    · rcases le_total a.2.2 b.2.2 with h3 | h3
      · exact Or.inl (Or.inr ⟨h, Or.inr ⟨h2, h3⟩⟩)
      · exact Or.inr (Or.inr ⟨h.symm, Or.inr ⟨h2.symm, h3⟩⟩)
    · exact Or.inr (Or.inr ⟨h.symm, Or.inl h2⟩)
  · exact Or.inr (Or.inl h)

theorem tripleLe_trans {a b c : Nat × Nat × List Char}
    (hab : tripleLe a b) (hbc : tripleLe b c) : tripleLe a c := by
  unfold tripleLe at hab hbc ⊢
  obtain h1 | ⟨h1, h2⟩ := hab <;> obtain g1 | ⟨g1, g2⟩ := hbc
  · exact Or.inl (by omega)
  · exact Or.inl (by omega)
  · exact Or.inl (by omega)
  · refine Or.inr ⟨h1.trans g1, ?_⟩
    obtain h2 | ⟨h2e, h2l⟩ := h2 <;> obtain g2 | ⟨g2e, g2l⟩ := g2
    · exact Or.inl (by omega)
    · exact Or.inl (by omega)
    · exact Or.inl (by omega)
    · exact Or.inr ⟨h2e.trans g2e, le_trans h2l g2l⟩

/-- The comparison realising `sorted(keys, key=delete_sort_key, reverse=True)`:
`a` precedes `b` when `a`'s tuple is the larger. -/
def rmdirRel (a b : ListKey) : Prop := tripleLe (deleteSortKey b) (deleteSortKey a)

instance : DecidableRel rmdirRel := fun a b => by
  unfold rmdirRel
  infer_instance

instance : IsTotal ListKey rmdirRel :=
  ⟨fun a b => tripleLe_total (deleteSortKey b) (deleteSortKey a)⟩

instance : IsTrans ListKey rmdirRel :=
  ⟨fun _ _ _ hab hbc => tripleLe_trans hbc hab⟩

/-- The order in which `_rmdir` issues the DELETE requests. -/
def rmdirDeleteOrder (keys : List ListKey) : List ListKey :=
  List.insertionSort rmdirRel keys

/-- C6: the DELETE order is a permutation of the listed keys sorted by
decreasing `'/'`-count, then decreasing key length, then reverse-lexicographic
key; consequently any key of which another listed key is a strict prefix (a
child extending a parent's key) is deleted strictly before that other key. -/
theorem rmdir_deletes_children_before_parents (keys : List ListKey) :
    (rmdirDeleteOrder keys).Perm keys ∧
    List.Sorted rmdirRel (rmdirDeleteOrder keys) ∧
    ∀ a b, a ∈ keys → b ∈ keys → b.key <+: a.key → b.key ≠ a.key →
      ∀ i j : Fin (rmdirDeleteOrder keys).length,
        (rmdirDeleteOrder keys).get i = a → (rmdirDeleteOrder keys).get j = b →
        (i : Nat) < (j : Nat) := by
  refine ⟨List.perm_insertionSort rmdirRel keys,
    List.sorted_insertionSort rmdirRel keys, ?_⟩
  intro a b _ _ hpre hne i j hia hjb
  have hsorted := List.sorted_insertionSort rmdirRel keys
  have hcount : List.count '/' b.key ≤ List.count '/' a.key :=
    hpre.sublist.count_le '/'
  have hlen : b.key.length < a.key.length :=
    lt_of_le_of_ne hpre.length_le fun he => hne (hpre.eq_of_length he)
  rcases lt_trichotomy (i : Nat) (j : Nat) with h | h | h
  · exact h
  · exfalso
    apply hne
    have : a = b := by
      rw [← hia, ← hjb]
      congr 1
      exact Fin.ext h
    rw [this]
  · exfalso
    have hrel : rmdirRel ((rmdirDeleteOrder keys).get j) ((rmdirDeleteOrder keys).get i) :=
      hsorted.rel_get_of_lt h
    rw [hia, hjb] at hrel
    unfold rmdirRel tripleLe deleteSortKey at hrel
    simp only at hrel
    omega

theorem rmdir_deletes_children_before_parents_witness :
    (rmdirDeleteOrder [⟨['a', '/', 'b'], 0, 0⟩, ⟨['a'], 0, 0⟩]).Perm
      [⟨['a', '/', 'b'], 0, 0⟩, ⟨['a'], 0, 0⟩] ∧ (0 : Nat) < 1 :=
  ⟨(rmdir_deletes_children_before_parents [⟨['a', '/', 'b'], 0, 0⟩, ⟨['a'], 0, 0⟩]).1,
   (rmdir_deletes_children_before_parents [⟨['a', '/', 'b'], 0, 0⟩, ⟨['a'], 0, 0⟩]).2.2
     ⟨['a', '/', 'b'], 0, 0⟩ ⟨['a'], 0, 0⟩ (by decide) (by decide) (by decide)
     (by decide) ⟨0, by decide⟩ ⟨1, by decide⟩ (by decide) (by decide)⟩

/-! ### SigV4 canonical request (aioftps3.py `_aws_sig_v4_headers`, lines 578-631)

Byte strings are modelled as `List Nat`.  `urllib.parse.quote(s, safe='~')`
percent-encodes every byte outside urllib's always-safe set
(ASCII letters, digits, `_`, `.`, `-`, `~`) with an uppercase `%XX` escape;
`safe='/~'` (used for the canonical URI) additionally keeps `/`.  The SHA-256
and HMAC-SHA256 primitives are library calls in the source and enter the
model as function parameters. -/

def isAlwaysSafeByte (b : Nat) : Bool :=
  (65 ≤ b && b ≤ 90) || (97 ≤ b && b ≤ 122) || (48 ≤ b && b ≤ 57) ||
  b == 45 || b == 46 || b == 95 || b == 126

def hexUpper (n : Nat) : Nat := if n < 10 then 48 + n else 55 + n

/-- `urllib.parse.quote(s, safe=extra)` where `extra` is the set of bytes
passed in `safe` beyond the always-safe ones. -/
def urlquoteWith (extraSafe : List Nat) (s : List Nat) : List Nat :=
  (s.map fun b =>
    if isAlwaysSafeByte b || extraSafe.contains b then [b]
    else [37, hexUpper (b / 16), hexUpper (b % 16)]).flatten

/-- `urllib.parse.quote(s, safe='~')`. -/
def urlquote (s : List Nat) : List Nat := urlquoteWith [] s

/-- Python tuple comparison on `(quoted_key, quoted_value)` pairs, as used by
`sorted(...)` in `canonical_request` (line 603-606). -/
def pairLe (a b : List Nat × List Nat) : Prop :=
  a.1 < b.1 ∨ (a.1 = b.1 ∧ a.2 ≤ b.2)

instance : DecidableRel pairLe := fun a b => by
  unfold pairLe
  infer_instance

instance : IsTotal (List Nat × List Nat) pairLe := by
  refine ⟨fun a b => ?_⟩
  unfold pairLe
  rcases lt_trichotomy a.1 b.1 with h | h | h
  · exact Or.inl (Or.inl h)
  · rcases le_total a.2 b.2 with h2 | h2
    · exact Or.inl (Or.inr ⟨h, h2⟩)
    · exact Or.inr (Or.inr ⟨h.symm, h2⟩)
  · exact Or.inr (Or.inl h)

instance : IsTrans (List Nat × List Nat) pairLe := by
  refine ⟨fun a b c hab hbc => ?_⟩
  unfold pairLe at hab hbc ⊢
  obtain h1 | ⟨h1, h2⟩ := hab <;> obtain g1 | ⟨g1, g2⟩ := hbc
  · exact Or.inl (h1.trans g1)
  · exact Or.inl (g1 ▸ h1)
  · exact Or.inl (h1 ▸ g1)
  · exact Or.inr ⟨h1.trans g1, h2.trans g2⟩

instance : IsAntisymm (List Nat × List Nat) pairLe := by
  refine ⟨fun a b hab hba => ?_⟩
  unfold pairLe at hab hba
  obtain h1 | ⟨h1, h2⟩ := hab <;> obtain g1 | ⟨g1, g2⟩ := hba
  · exact absurd g1 (lt_asymm h1)
  · exact absurd h1 (g1 ▸ lt_irrefl _)
  · exact absurd g1 (h1 ▸ lt_irrefl _)
  · exact Prod.ext h1 (le_antisymm h2 g2)

/-- `'&'.join(parts)`. -/
def joinAmp : List (List Nat) → List Nat
  | [] => []
  | [x] => x
  | x :: xs => x ++ 38 :: joinAmp xs

/-- The `canonical_querystring` of `canonical_request` (lines 603-607):
percent-encode each pair, sort the encoded pairs, join as `k=v` with `&`. -/
def canonicalQuerystring (query : List (List Nat × List Nat)) : List Nat :=
  joinAmp ((List.insertionSort pairLe
    (query.map fun kv => (urlquote kv.1, urlquote kv.2))).map
      fun kv => kv.1 ++ 61 :: kv.2)

/-- `canonical_request()` (lines 601-611) with the non-query signing inputs
held fixed as parameters (`canonicalHeaders` is the already concatenated
`"key:value\n"` block). -/
def canonicalRequest (method path : List Nat) (query : List (List Nat × List Nat))
    (canonicalHeaders signedHeaders payloadHash : List Nat) : List Nat :=
  method ++ 10 :: urlquoteWith [47] path ++ 10 :: canonicalQuerystring query ++
    10 :: canonicalHeaders ++ 10 :: signedHeaders ++ 10 :: payloadHash

def algorithmBytes : List Nat := ("AWS4-HMAC-SHA256".toList).map Char.toNat

def aws4RequestBytes : List Nat := ("aws4_request".toList).map Char.toNat

def aws4Bytes : List Nat := ("AWS4".toList).map Char.toNat

/-- `string_to_sign` (lines 616-617); `sha256hex` stands for
`hashlib.sha256(·).hexdigest()`. -/
def stringToSign (sha256hex : List Nat → List Nat) (amzdate scope cr : List Nat) :
    List Nat :=
  algorithmBytes ++ 10 :: amzdate ++ 10 :: scope ++ 10 :: sha256hex cr

/-- `signature()` (lines 600-623): the chained HMAC key derivation applied to
`string_to_sign`; `hmac` stands for `hmac.new(k, m, sha256).digest()` and
`hexStr` for `.hex()`. -/
def signatureOf (hmac : List Nat → List Nat → List Nat) (hexStr : List Nat → List Nat)
    (sha256hex : List Nat → List Nat)
    (secret datestamp region service amzdate scope cr : List Nat) : List Nat :=
  let dateKey := hmac (aws4Bytes ++ secret) datestamp
  let regionKey := hmac dateKey region
  let serviceKey := hmac regionKey service
  let requestKey := hmac serviceKey aws4RequestBytes
  hexStr (hmac requestKey (stringToSign sha256hex amzdate scope cr))

/-- C8: permuting the key-value pairs of the query leaves the canonical query
string unchanged, hence also the canonical request and the resulting
signature for otherwise-fixed signing inputs. -/
theorem canonical_query_permutation_invariant
    (q1 q2 : List (List Nat × List Nat)) (h : q1.Perm q2) :
    canonicalQuerystring q1 = canonicalQuerystring q2 ∧
    (∀ method path canonicalHeaders signedHeaders payloadHash : List Nat,
      canonicalRequest method path q1 canonicalHeaders signedHeaders payloadHash =
        canonicalRequest method path q2 canonicalHeaders signedHeaders payloadHash) ∧
    ∀ (hmac : List Nat → List Nat → List Nat) (hexStr sha256hex : List Nat → List Nat)
      (method path canonicalHeaders signedHeaders payloadHash
        secret datestamp region service amzdate scope : List Nat),
      signatureOf hmac hexStr sha256hex secret datestamp region service amzdate scope
          (canonicalRequest method path q1 canonicalHeaders signedHeaders payloadHash) =
        signatureOf hmac hexStr sha256hex secret datestamp region service amzdate scope
          (canonicalRequest method path q2 canonicalHeaders signedHeaders payloadHash) := by
  have hsort :
      List.insertionSort pairLe (q1.map fun kv => (urlquote kv.1, urlquote kv.2)) =
        List.insertionSort pairLe (q2.map fun kv => (urlquote kv.1, urlquote kv.2)) := by
    refine List.eq_of_perm_of_sorted ?_ (List.sorted_insertionSort pairLe _)
      (List.sorted_insertionSort pairLe _)
    exact ((List.perm_insertionSort pairLe _).trans (h.map _)).trans
      (List.perm_insertionSort pairLe _).symm
  have hq : canonicalQuerystring q1 = canonicalQuerystring q2 := by
    unfold canonicalQuerystring
    rw [hsort]
  have hcr : ∀ method path canonicalHeaders signedHeaders payloadHash : List Nat,
      canonicalRequest method path q1 canonicalHeaders signedHeaders payloadHash =
        canonicalRequest method path q2 canonicalHeaders signedHeaders payloadHash := by
    intro method path canonicalHeaders signedHeaders payloadHash
    unfold canonicalRequest
    rw [hq]
  refine ⟨hq, hcr, ?_⟩
  intro hmac hexStr sha256hex method path canonicalHeaders signedHeaders payloadHash
    secret datestamp region service amzdate scope
  rw [hcr method path canonicalHeaders signedHeaders payloadHash]

theorem canonical_query_permutation_invariant_witness :
    canonicalQuerystring [([107], [118]), ([108], [119])] =
      canonicalQuerystring [([108], [119]), ([107], [118])] :=
  (canonical_query_permutation_invariant
    [([107], [118]), ([108], [119])] [([108], [119]), ([107], [118])]
    (by decide)).1

/-! ### The per-path fair read/write lock (aioftps3.py `_ReadWriteLock`, lines 648-716)

Waiter futures are modelled as records with an identity, their
`_ReadWaiter`/`_WriteWaiter` class, and their cancelled flag.  The state
holds the FIFO `_waiters` deque, `_reads_held`, `_write_held`, plus model
bookkeeping: the list of granted waiters in grant order (`set_result` calls)
and the set of identities ever enqueued (future objects are fresh).

`_pop_queued_waiters` pops from the head: cancelled waiters are popped and
dropped, waiters of the requested type are popped and yielded, and the first
non-cancelled waiter of the other type stops it.  The read phase of
`_resolve_queued_waiters` consumes the whole generator; the write phase
`break`s after the first yielded waiter, so it pops the dropped cancelled
prefix and at most one write waiter (`popFirstWrite`). -/

inductive WaiterType where
  | read
  | write
deriving DecidableEq, Repr

structure Waiter where
  id : Nat
  type : WaiterType
  cancelled : Bool
deriving DecidableEq, Repr

structure LockState where
  waiters : List Waiter
  readsHeld : Nat
  writeHeld : Bool
  granted : List Waiter
  used : List Nat
deriving DecidableEq, Repr

/-- `_pop_queued_waiters(waiter_type)` as consumed by a full `for` loop:
returns (yielded waiters, remaining queue). -/
def popQueuedWaiters (t : WaiterType) : List Waiter → List Waiter × List Waiter
  | [] => ([], [])
  | w :: rest =>
    if w.cancelled then popQueuedWaiters t rest
    else if w.type = t then
      (w :: (popQueuedWaiters t rest).1, (popQueuedWaiters t rest).2)
    else ([], w :: rest)

/-- `_pop_queued_waiters(_WriteWaiter)` as consumed by a `for ... break` loop:
pops dropped cancelled waiters and at most the first write waiter. -/
def popFirstWrite : List Waiter → Option Waiter × List Waiter
  | [] => (none, [])
  | w :: rest =>
    if w.cancelled then popFirstWrite rest
    else if w.type = WaiterType.write then (some w, rest)
    else (none, w :: rest)

/-- First phase of `_resolve_queued_waiters` (lines 673-676): grant all
contiguous read waiters at the head when no writer is held. -/
def resolveReads (s : LockState) : LockState :=
  if s.writeHeld then s
  else
    { s with waiters := (popQueuedWaiters WaiterType.read s.waiters).2,
             readsHeld := s.readsHeld + (popQueuedWaiters WaiterType.read s.waiters).1.length,
             granted := s.granted ++ (popQueuedWaiters WaiterType.read s.waiters).1 }

/-- Second phase (lines 678-682): grant at most one write waiter when no
writer is held and no reads are held. -/
def resolveWrites (s : LockState) : LockState :=
  if s.writeHeld = false ∧ s.readsHeld = 0 then
    match (popFirstWrite s.waiters).1 with
    | some w =>
      { s with waiters := (popFirstWrite s.waiters).2, writeHeld := true,
               granted := s.granted ++ [w] }
    | none => { s with waiters := (popFirstWrite s.waiters).2 }
  else s

def resolveQueuedWaiters (s : LockState) : LockState := resolveWrites (resolveReads s)

/-- The lock's externally driven steps: a waiter arrives (`_acquire` append +
resolve), a queued waiter's task is cancelled (the `except CancelledError`
branch: the future is now cancelled and resolve runs), or a granted holder
releases (`_on_read_release` / `_on_write_release` + resolve). -/
inductive LockEvent where
  | enqueue (id : Nat) (t : WaiterType)
  | cancel (id : Nat)
  | releaseRead
  | releaseWrite
deriving DecidableEq, Repr

def applyLockEvent : LockEvent → LockState → LockState
  | .enqueue i t, s =>
    if s.used.contains i then s
    else resolveQueuedWaiters
      { s with waiters := s.waiters ++ [⟨i, t, false⟩], used := s.used ++ [i] }
  | .cancel i, s =>
    resolveQueuedWaiters
      { s with waiters := s.waiters.map fun w =>
          if w.id = i then { w with cancelled := true } else w }
  | .releaseRead, s =>
    if s.readsHeld = 0 then s
    else resolveQueuedWaiters { s with readsHeld := s.readsHeld - 1 }
  | .releaseWrite, s =>
    if s.writeHeld then resolveQueuedWaiters { s with writeHeld := false } else s

def lockRun : List LockEvent → LockState → LockState
  | [], s => s
  | e :: es, s => lockRun es (applyLockEvent e s)

def lockInit : LockState :=
  { waiters := [], readsHeld := 0, writeHeld := false, granted := [], used := [] }

def grantedIds (s : LockState) : List Nat := s.granted.map Waiter.id

/-- Pops happen only at the head: a non-cancelled waiter `e` is either
yielded (granted), or the queue behind it — `e` included — is untouched and
everything yielded lies strictly before `e`. -/
theorem popQueuedWaiters_split (t : WaiterType) (pre : List Waiter) (e : Waiter)
    (post : List Waiter) (he : e.cancelled = false) :
    e ∈ (popQueuedWaiters t (pre ++ e :: post)).1 ∨
    ∃ pre2, (popQueuedWaiters t (pre ++ e :: post)).2 = pre2 ++ e :: post ∧
      (∀ x ∈ pre2, x ∈ pre) ∧
      ∀ y ∈ (popQueuedWaiters t (pre ++ e :: post)).1, y ∈ pre := by
  induction pre with
  | nil =>
    by_cases ht : e.type = t
    · left
      simp [popQueuedWaiters, he, ht]
    · right
      refine ⟨[], ?_, by simp, ?_⟩
      · simp [popQueuedWaiters, he, ht]
      · simp [popQueuedWaiters, he, ht]
  | cons a pre ih =>
    by_cases hac : a.cancelled
    · rw [List.cons_append]
      rcases ih with h | ⟨pre2, h1, h2, h3⟩
      · left
        simpa [popQueuedWaiters, hac] using h
      · right
        refine ⟨pre2, ?_, fun x hx => List.mem_cons_of_mem a (h2 x hx), ?_⟩
        · simpa [popQueuedWaiters, hac] using h1
        · intro y hy
          exact List.mem_cons_of_mem a (h3 y (by simpa [popQueuedWaiters, hac] using hy))
    · by_cases hat : a.type = t
      · rw [List.cons_append]
        rcases ih with h | ⟨pre2, h1, h2, h3⟩
        · left
          simp only [popQueuedWaiters, hac, Bool.false_eq_true, if_false, hat, if_true,
            ite_true, ite_false, List.mem_cons]
          exact Or.inr h
        · right
          refine ⟨pre2, ?_, fun x hx => List.mem_cons_of_mem a (h2 x hx), ?_⟩
          · simpa [popQueuedWaiters, hac, hat] using h1
          · intro y hy
            simp only [popQueuedWaiters, hac, Bool.false_eq_true, if_false, hat, if_true,
              ite_true, ite_false, List.mem_cons] at hy
            rcases hy with hy | hy
            · exact hy ▸ List.mem_cons_self a pre
            · exact List.mem_cons_of_mem a (h3 y hy)
      · right
        refine ⟨a :: pre, ?_, fun x hx => hx, ?_⟩
        · simp [popQueuedWaiters, hac, hat]
        · simp [popQueuedWaiters, hac, hat]

/-- The write-phase pop: either it grants a waiter with `e`'s identity, or
the queue from `e` on is untouched and any granted waiter lies before `e`. -/
theorem popFirstWrite_split (pre : List Waiter) (e : Waiter) (post : List Waiter)
    (he : e.cancelled = false) :
    (∃ w, (popFirstWrite (pre ++ e :: post)).1 = some w ∧ w.id = e.id) ∨
    ∃ pre2, (popFirstWrite (pre ++ e :: post)).2 = pre2 ++ e :: post ∧
      (∀ x ∈ pre2, x ∈ pre) ∧
      ((popFirstWrite (pre ++ e :: post)).1 = none ∨
        ∃ w ∈ pre, (popFirstWrite (pre ++ e :: post)).1 = some w) := by
  induction pre with
  | nil =>
    by_cases ht : e.type = WaiterType.write
    · left
      exact ⟨e, by simp [popFirstWrite, he, ht], rfl⟩
    · right
      refine ⟨[], ?_, by simp, Or.inl ?_⟩
      · simp [popFirstWrite, he, ht]
      · simp [popFirstWrite, he, ht]
  | cons a pre ih =>
    by_cases hac : a.cancelled
    · rw [List.cons_append]
      rcases ih with ⟨w, h1, h2⟩ | ⟨pre2, h1, h2, h3⟩
      · left
        exact ⟨w, by simpa [popFirstWrite, hac] using h1, h2⟩
      · right
        refine ⟨pre2, by simpa [popFirstWrite, hac] using h1,
          fun x hx => List.mem_cons_of_mem a (h2 x hx), ?_⟩
        rcases h3 with h3 | ⟨w, hw, h3⟩
        · exact Or.inl (by simpa [popFirstWrite, hac] using h3)
        · exact Or.inr ⟨w, List.mem_cons_of_mem a hw,
            by simpa [popFirstWrite, hac] using h3⟩
    · by_cases hat : a.type = WaiterType.write
      · right
        refine ⟨pre, ?_, fun x hx => List.mem_cons_of_mem a hx, ?_⟩
        · simp [popFirstWrite, hac, hat]
        · exact Or.inr ⟨a, List.mem_cons_self a pre, by simp [popFirstWrite, hac, hat]⟩
      · right
        refine ⟨a :: pre, ?_, fun x hx => hx, Or.inl ?_⟩
        · simp [popFirstWrite, hac, hat]
        · simp [popFirstWrite, hac, hat]

/-- FIFO safety invariant for a pending waiter `we1` and a later waiter's
identity `w2id`: `w2id` was already enqueued once (so a fresh waiter cannot
reuse it), it has not been granted, and `we1` sits non-cancelled in the
queue with no entry carrying `w2id` ahead of it. -/
def Pinv (we1 : Waiter) (w2id : Nat) (s : LockState) : Prop :=
  w2id ∈ s.used ∧ w2id ∉ grantedIds s ∧
  ∃ pre post, s.waiters = pre ++ we1 :: post ∧ ∀ x ∈ pre, x.id ≠ w2id

theorem resolveReads_granted (s : LockState) :
    ∃ l, (resolveReads s).granted = s.granted ++ l := by
  unfold resolveReads
  by_cases h : s.writeHeld
  · exact ⟨[], by simp [h]⟩
  · exact ⟨(popQueuedWaiters WaiterType.read s.waiters).1, by simp [h]⟩

theorem resolveWrites_granted (s : LockState) :
    ∃ l, (resolveWrites s).granted = s.granted ++ l := by
  unfold resolveWrites
  by_cases h : s.writeHeld = false ∧ s.readsHeld = 0
  · cases hw : (popFirstWrite s.waiters).1 with
    | none => exact ⟨[], by simp [h, hw]⟩
    | some w => exact ⟨[w], by simp [h, hw]⟩
  · exact ⟨[], by simp [h]⟩

theorem resolve_granted (s : LockState) :
    ∃ l, (resolveQueuedWaiters s).granted = s.granted ++ l := by
  obtain ⟨l1, h1⟩ := resolveReads_granted s
  obtain ⟨l2, h2⟩ := resolveWrites_granted (resolveReads s)
  exact ⟨l1 ++ l2, by rw [resolveQueuedWaiters, h2, h1, List.append_assoc]⟩

theorem applyLockEvent_granted (e : LockEvent) (s : LockState) :
    ∃ l, (applyLockEvent e s).granted = s.granted ++ l := by
  cases e with
  | enqueue i t =>
    by_cases h : i ∈ s.used
    · exact ⟨[], by simp [applyLockEvent, h]⟩
    · simpa [applyLockEvent, h] using resolve_granted
        { s with waiters := s.waiters ++ [⟨i, t, false⟩], used := s.used ++ [i] }
  | cancel i =>
    simpa [applyLockEvent] using resolve_granted
      { s with waiters := s.waiters.map fun w =>
          if w.id = i then { w with cancelled := true } else w }
  | releaseRead =>
    by_cases h : s.readsHeld = 0
    · exact ⟨[], by simp [applyLockEvent, h]⟩
    · simpa [applyLockEvent, h] using resolve_granted { s with readsHeld := s.readsHeld - 1 }
  | releaseWrite =>
    by_cases h : s.writeHeld
    · simpa [applyLockEvent, h] using resolve_granted { s with writeHeld := false }
    · exact ⟨[], by simp [applyLockEvent, h]⟩

theorem grantedIds_lockRun_mono (events : List LockEvent) (s : LockState) :
    ∀ i ∈ grantedIds s, i ∈ grantedIds (lockRun events s) := by
  induction events generalizing s with
  | nil => exact fun i hi => hi
  | cons e es ih =>
    intro i hi
    refine ih (applyLockEvent e s) i ?_
    obtain ⟨l, hl⟩ := applyLockEvent_granted e s
    unfold grantedIds at hi ⊢
    rw [hl, List.map_append]
    exact List.mem_append_left _ hi

theorem notMem_grantedIds_append (base : List Waiter) (extra : List Waiter) (w2id : Nat)
    (hbase : w2id ∉ base.map Waiter.id) (hextra : ∀ y ∈ extra, y.id ≠ w2id) :
    w2id ∉ (base ++ extra).map Waiter.id := by
  intro hmem
  rw [List.map_append, List.mem_append] at hmem
  rcases hmem with hmem | hmem
  · exact hbase hmem
  · obtain ⟨y, hy, hyid⟩ := List.mem_map.mp hmem
    exact hextra y hy hyid

theorem Pinv_resolveReads (we1 : Waiter) (w2id : Nat) (s : LockState)
    (hc : we1.cancelled = false) (hP : Pinv we1 w2id s) :
    we1.id ∈ grantedIds (resolveReads s) ∨ Pinv we1 w2id (resolveReads s) := by
  obtain ⟨hu, hg, pre, post, hw, hpre⟩ := hP
  unfold resolveReads
  by_cases hwh : s.writeHeld
  · right
    simp only [hwh, if_true]
    exact ⟨hu, hg, pre, post, hw, hpre⟩
  · simp only [hwh, if_false, Bool.false_eq_true]
    rw [hw]
    rcases popQueuedWaiters_split WaiterType.read pre we1 post hc with h | ⟨pre2, h1, h2, h3⟩
    · exact Or.inl (List.mem_map_of_mem Waiter.id (List.mem_append_right s.granted h))
    · refine Or.inr ⟨hu, ?_, pre2, post, h1, fun x hx => hpre x (h2 x hx)⟩
      exact notMem_grantedIds_append s.granted _ w2id hg fun y hy => hpre y (h3 y hy)

theorem Pinv_resolveWrites (we1 : Waiter) (w2id : Nat) (s : LockState)
    (hc : we1.cancelled = false) (hP : Pinv we1 w2id s) :
    we1.id ∈ grantedIds (resolveWrites s) ∨ Pinv we1 w2id (resolveWrites s) := by
  obtain ⟨hu, hg, pre, post, hw, hpre⟩ := hP
  unfold resolveWrites
  by_cases hcond : s.writeHeld = false ∧ s.readsHeld = 0
  · rw [if_pos hcond, hw]
    rcases popFirstWrite_split pre we1 post hc with ⟨w, h1, h2⟩ | ⟨pre2, h1, h2, h3⟩
    · left
      rw [h1]
      exact h2 ▸ List.mem_map_of_mem Waiter.id
        (List.mem_append_right s.granted (List.mem_singleton.mpr rfl))
    · rcases h3 with h3 | ⟨w, hwpre, h3⟩
      · right
        rw [h3]
        exact ⟨hu, hg, pre2, post, h1, fun x hx => hpre x (h2 x hx)⟩
      · right
        rw [h3]
        refine ⟨hu, ?_, pre2, post, h1, fun x hx => hpre x (h2 x hx)⟩
        refine notMem_grantedIds_append s.granted [w] w2id hg ?_
        intro y hy
        rw [List.mem_singleton] at hy
        exact hy ▸ hpre w hwpre
  · right
    rw [if_neg hcond]
    exact ⟨hu, hg, pre, post, hw, hpre⟩

theorem Pinv_resolve (we1 : Waiter) (w2id : Nat) (s : LockState)
    (hc : we1.cancelled = false) (hP : Pinv we1 w2id s) :
    we1.id ∈ grantedIds (resolveQueuedWaiters s) ∨
      Pinv we1 w2id (resolveQueuedWaiters s) := by
  unfold resolveQueuedWaiters
  rcases Pinv_resolveReads we1 w2id s hc hP with h | h
  · left
    obtain ⟨l, hl⟩ := resolveWrites_granted (resolveReads s)
    unfold grantedIds at h ⊢
    rw [hl, List.map_append]
    exact List.mem_append_left _ h
  · exact Pinv_resolveWrites we1 w2id (resolveReads s) hc h

theorem Pinv_applyLockEvent (we1 : Waiter) (w2id : Nat) (e : LockEvent) (s : LockState)
    (hc : we1.cancelled = false) (he : e ≠ LockEvent.cancel we1.id)
    (hP : Pinv we1 w2id s) :
    we1.id ∈ grantedIds (applyLockEvent e s) ∨ Pinv we1 w2id (applyLockEvent e s) := by
  obtain ⟨hu, hg, pre, post, hw, hpre⟩ := hP
  cases e with
  | enqueue i t =>
    by_cases hmem : s.used.contains i = true
    · right
      simp only [applyLockEvent]
      rw [if_pos hmem]
      exact ⟨hu, hg, pre, post, hw, hpre⟩
    · simp only [applyLockEvent]
      rw [if_neg hmem]
      refine Pinv_resolve we1 w2id _ hc ⟨List.mem_append_left [i] hu, hg, pre,
        post ++ [⟨i, t, false⟩], ?_, hpre⟩
      show s.waiters ++ [⟨i, t, false⟩] = pre ++ we1 :: (post ++ [⟨i, t, false⟩])
      rw [hw]
      simp [List.append_assoc]
  | cancel i =>
    have hine : i ≠ we1.id := fun h => he (h ▸ rfl)
    have hid : ∀ w : Waiter,
        (if w.id = i then { w with cancelled := true } else w).id = w.id := by
      intro w
      by_cases hyi : w.id = i
      · rw [if_pos hyi]
      · rw [if_neg hyi]
    simp only [applyLockEvent]
    refine Pinv_resolve we1 w2id _ hc ⟨hu, hg, pre.map fun w =>
      if w.id = i then { w with cancelled := true } else w, post.map fun w =>
      if w.id = i then { w with cancelled := true } else w, ?_, ?_⟩
    · show s.waiters.map _ = _
      rw [hw]
      simp only [List.map_append, List.map_cons]
      rw [if_neg fun h => hine h.symm]
    · intro x hx
      obtain ⟨y, hy, hxy⟩ := List.mem_map.mp hx
      rw [← hxy, hid y]
      exact hpre y hy
  | releaseRead =>
    by_cases hr : s.readsHeld = 0
    · right
      simp only [applyLockEvent, hr, if_true]
      exact ⟨hu, hg, pre, post, hw, hpre⟩
    · simp only [applyLockEvent, hr, if_false]
      exact Pinv_resolve we1 w2id _ hc ⟨hu, hg, pre, post, hw, hpre⟩
  | releaseWrite =>
    by_cases hwh : s.writeHeld
    · simp only [applyLockEvent, hwh, if_true]
      exact Pinv_resolve we1 w2id _ hc ⟨hu, hg, pre, post, hw, hpre⟩
    · right
      simp only [applyLockEvent, hwh, Bool.false_eq_true, if_false]
      exact ⟨hu, hg, pre, post, hw, hpre⟩

theorem Pinv_lockRun (we1 : Waiter) (w2id : Nat) (events : List LockEvent)
    (s : LockState) (hc : we1.cancelled = false) (hP : Pinv we1 w2id s)
    (hnc : ∀ e ∈ events, e ≠ LockEvent.cancel we1.id)
    (hfin : we1.id ∉ grantedIds (lockRun events s)) :
    w2id ∉ grantedIds (lockRun events s) := by
  induction events generalizing s with
  | nil => exact hP.2.1
  | cons e es ih =>
    rw [lockRun] at hfin ⊢
    rcases Pinv_applyLockEvent we1 w2id e s hc (hnc e (List.mem_cons_self e es)) hP with
      h | h
    · exact absurd (grantedIds_lockRun_mono es (applyLockEvent e s) we1.id h) hfin
    · exact ih (applyLockEvent e s) h (fun e' he' => hnc e' (List.mem_cons_of_mem e he'))
        hfin

/-- C7: grants respect FIFO order among conflicting waiters.  If the queue of
a lock state holds a non-cancelled waiter `w1e` ahead of a conflicting waiter
`w2e` (no entry ahead of `w1e` reuses `w2e`'s identity, `w2e` is recorded as
enqueued and not yet granted), then after any sequence of steps — enqueues,
cancellations of other waiters, and releases — in which `w1e` has still not
been granted, `w2e` has not been granted either. -/
theorem lock_grants_respect_fifo (s0 : LockState) (events : List LockEvent)
    (q1 q2 q3 : List Waiter) (w1e w2e : Waiter)
    (hq : s0.waiters = q1 ++ w1e :: (q2 ++ w2e :: q3))
    (hc1 : w1e.cancelled = false)
    (_hconf : w1e.type ≠ w2e.type)
    (hpre : ∀ x ∈ q1, x.id ≠ w2e.id)
    (hused : w2e.id ∈ s0.used)
    (hg0 : w2e.id ∉ grantedIds s0)
    (hnc : ∀ e ∈ events, e ≠ LockEvent.cancel w1e.id)
    (hfin : w1e.id ∉ grantedIds (lockRun events s0)) :
    w2e.id ∉ grantedIds (lockRun events s0) :=
  Pinv_lockRun w1e w2e.id events s0 hc1
    ⟨hused, hg0, q1, q2 ++ w2e :: q3, hq, hpre⟩ hnc hfin

theorem lock_grants_respect_fifo_witness :
    (2 : Nat) ∉ grantedIds (lockRun []
      { waiters := [⟨1, WaiterType.write, false⟩, ⟨2, WaiterType.read, false⟩],
        readsHeld := 0, writeHeld := true, granted := [], used := [1, 2] }) :=
  lock_grants_respect_fifo
    { waiters := [⟨1, WaiterType.write, false⟩, ⟨2, WaiterType.read, false⟩],
      readsHeld := 0, writeHeld := true, granted := [], used := [1, 2] }
    [] [] [] [] ⟨1, WaiterType.write, false⟩ ⟨2, WaiterType.read, false⟩
    rfl rfl (by decide) (by decide) (by decide) (by decide) (by decide) (by decide)

/-! ### Writer exclusivity (C10) -/

/-- The exclusivity invariant: the writer-held flag is never set while the
reader count is positive. -/
def WriterExcl (s : LockState) : Prop := s.writeHeld = true → s.readsHeld = 0

theorem writerExcl_resolveReads (s : LockState) (h : WriterExcl s) :
    WriterExcl (resolveReads s) := by
  unfold resolveReads
  by_cases hwh : s.writeHeld
  · rw [if_pos hwh]
    exact h
  · rw [if_neg hwh]
    intro hcontra
    exact absurd hcontra hwh

theorem writerExcl_resolveWrites (s : LockState) (h : WriterExcl s) :
    WriterExcl (resolveWrites s) := by
  unfold resolveWrites
  by_cases hcond : s.writeHeld = false ∧ s.readsHeld = 0
  · rw [if_pos hcond]
    cases hw : (popFirstWrite s.waiters).1 with
    | none =>
      intro hcontra
      exact absurd hcontra (by simp [hcond.1])
    | some w =>
      intro _
      exact hcond.2
  · rw [if_neg hcond]
    exact h

theorem writerExcl_resolve (s : LockState) (h : WriterExcl s) :
    WriterExcl (resolveQueuedWaiters s) :=
  writerExcl_resolveWrites _ (writerExcl_resolveReads s h)

theorem writerExcl_applyLockEvent (e : LockEvent) (s : LockState) (h : WriterExcl s) :
    WriterExcl (applyLockEvent e s) := by
  cases e with
  | enqueue i t =>
    by_cases hmem : s.used.contains i = true
    · simp only [applyLockEvent]
      rw [if_pos hmem]
      exact h
    · simp only [applyLockEvent]
      rw [if_neg hmem]
      exact writerExcl_resolve _ h
  | cancel i => exact writerExcl_resolve _ h
  | releaseRead =>
    by_cases hr : s.readsHeld = 0
    · simp only [applyLockEvent]
      rw [if_pos hr]
      exact h
    · simp only [applyLockEvent]
      rw [if_neg hr]
      exact writerExcl_resolve _ fun hw => by
        rw [h hw] at hr
        exact absurd rfl hr
  | releaseWrite =>
    by_cases hwh : s.writeHeld
    · simp only [applyLockEvent]
      rw [if_pos hwh]
      exact writerExcl_resolve _ fun hcontra => absurd hcontra (by simp)
    · simp only [applyLockEvent]
      rw [if_neg hwh]
      exact h

theorem writerExcl_lockRun (events : List LockEvent) (s : LockState)
    (h : WriterExcl s) : WriterExcl (lockRun events s) := by
  induction events generalizing s with
  | nil => exact h
  | cons e es ih => exact ih (applyLockEvent e s) (writerExcl_applyLockEvent e s h)

theorem popQueuedWaiters_types (t : WaiterType) (l : List Waiter) :
    ∀ y ∈ (popQueuedWaiters t l).1, y.type = t := by
  induction l with
  | nil => simp [popQueuedWaiters]
  | cons a rest ih =>
    by_cases hac : a.cancelled
    · simpa [popQueuedWaiters, hac] using ih
    · by_cases hat : a.type = t
      · intro y hy
        simp only [popQueuedWaiters, hac, Bool.false_eq_true, if_false, hat, if_true,
          ite_true, ite_false, List.mem_cons] at hy
        rcases hy with hy | hy
        · exact hy ▸ hat
        · exact ih y hy
      · simp [popQueuedWaiters, hac, hat]

/-- The waiters granted by one `_resolve_queued_waiters` round. -/
def newlyGranted (s : LockState) : List Waiter :=
  (resolveQueuedWaiters s).granted.drop s.granted.length

theorem resolveReads_granted_struct (s : LockState) :
    ∃ reads, (resolveReads s).granted = s.granted ++ reads ∧
      ∀ y ∈ reads, y.type = WaiterType.read := by
  unfold resolveReads
  by_cases hwh : s.writeHeld
  · rw [if_pos hwh]
    exact ⟨[], by simp, by simp⟩
  · rw [if_neg hwh]
    exact ⟨(popQueuedWaiters WaiterType.read s.waiters).1, rfl,
      popQueuedWaiters_types WaiterType.read s.waiters⟩

theorem resolveWrites_granted_struct (s : LockState) :
    ∃ writes, (resolveWrites s).granted = s.granted ++ writes ∧ writes.length ≤ 1 := by
  unfold resolveWrites
  by_cases hcond : s.writeHeld = false ∧ s.readsHeld = 0
  · rw [if_pos hcond]
    cases hw : (popFirstWrite s.waiters).1 with
    | none => exact ⟨[], by simp, by simp⟩
    | some w => exact ⟨[w], rfl, by simp⟩
  · rw [if_neg hcond]
    exact ⟨[], by simp, by simp⟩

theorem newlyGranted_writes_le_one (s : LockState) :
    ((newlyGranted s).filter fun w => w.type == WaiterType.write).length ≤ 1 := by
  obtain ⟨reads, hr, hrt⟩ := resolveReads_granted_struct s
  obtain ⟨writes, hwg, hw1⟩ := resolveWrites_granted_struct (resolveReads s)
  have hg : (resolveQueuedWaiters s).granted = s.granted ++ (reads ++ writes) := by
    rw [resolveQueuedWaiters, hwg, hr, List.append_assoc]
  unfold newlyGranted
  rw [hg, List.drop_left, List.filter_append]
  have hrf : reads.filter (fun w => w.type == WaiterType.write) = [] := by
    rw [List.filter_eq_nil_iff]
    intro y hy
    rw [hrt y hy]
    decide
  rw [hrf, List.nil_append]
  exact le_trans (List.length_filter_le _ writes) hw1

/-- C10: in every reachable state of the lock, the writer-held flag is never
set while the reader count is positive, and any single resolution round
grants at most one write waiter. -/
theorem lock_writer_exclusivity (events : List LockEvent) (s : LockState) :
    ((lockRun events lockInit).writeHeld = true →
      (lockRun events lockInit).readsHeld = 0) ∧
    ((newlyGranted s).filter fun w => w.type == WaiterType.write).length ≤ 1 :=
  ⟨writerExcl_lockRun events lockInit (fun h => by exact absurd h (by decide)),
   newlyGranted_writes_le_one s⟩

theorem lock_writer_exclusivity_witness :
    (lockRun [LockEvent.enqueue 0 WaiterType.write] lockInit).readsHeld = 0 ∧
    ((newlyGranted lockInit).filter fun w => w.type == WaiterType.write).length ≤ 1 :=
  ⟨(lock_writer_exclusivity [LockEvent.enqueue 0 WaiterType.write] lockInit).1
      (by decide),
   (lock_writer_exclusivity [LockEvent.enqueue 0 WaiterType.write] lockInit).2⟩

end AioFtpS3
